import Mathlib

/-!
Verification development for the cppformlang repository (a C++ port of
pyformlang): finite automata (Dfa / NFA / epsilon-NFA), context-free
grammars, and regular expressions.

States, symbols, variables and terminals wrap a label string in the source;
they are modelled here by their label (`String`).  Hash sets become
`Finset String`, hash maps become association lists where an insertion
prepends (so the first match is the most recent write, matching
`unordered_map::operator[]` assignment semantics).
-/

/-! ## TransitionFunction (deterministic), from
`finite_automaton/transition_function.h` -/

/-- Deterministic transition function: the mutable
`std::unordered_map<(State, Symbol), State>` of `TransitionFunction`,
modelled as an association list where the most recent `add_transition`
stands first. -/
abbrev TransFun (Q A : Type) : Type := List ((Q × A) × Q)

/-- `TransitionFunction::add_transition`: `transitions_[{from, symbol}] = to`,
a map assignment that silently overwrites any previous target. -/
def addTransition {Q A : Type} (tf : TransFun Q A) (fromState : Q) (symbol : A)
    (toState : Q) : TransFun Q A :=
  ((fromState, symbol), toState) :: tf

/-- `TransitionFunction::get_next_state`: the target recorded for
`(from_state, symbol)`, or `none` (`nullptr`) when no transition exists. -/
def getNextState {Q A : Type} [DecidableEq Q] [DecidableEq A]
    (tf : TransFun Q A) (fromState : Q) (symbol : A) : Option Q :=
  match tf with
  | [] => none
  | (key, target) :: rest =>
      if key = (fromState, symbol) then some target
      else getNextState rest fromState symbol

/-! ## DeterministicFiniteAutomaton, from
`finite_automaton/deterministic_finite_automaton.h` -/

/-- The data of `DeterministicFiniteAutomaton`: states, input symbols,
a deterministic transition function, at most one start state
(`start_states_` is kept a singleton by `set_start_state`), final states. -/
structure Dfa (Q A : Type) where
  states : Finset Q
  inputSymbols : Finset A
  tf : TransFun Q A
  start : Option Q
  finals : Finset Q

/-- The run of the Dfa main loop of `DeterministicFiniteAutomaton::accepts`:
starting from a state, follow `get_next_state` for each symbol; `none`
records the early `return false` on a missing transition. -/
def runDfa {Q A : Type} [DecidableEq Q] [DecidableEq A]
    (tf : TransFun Q A) (q0 : Q) (w : List A) : Option Q :=
  w.foldl (fun cur a => cur.bind fun q => getNextState tf q a) (some q0)

/-- Tail of `DeterministicFiniteAutomaton::accepts` after the start state is
fixed: run the word, reject on a missing transition, otherwise test
membership in `final_states_`. -/
def dfaAcceptsFrom {Q A : Type} [DecidableEq Q] [DecidableEq A]
    (d : Dfa Q A) (q0 : Q) (w : List A) : Bool :=
  match runDfa d.tf q0 w with
  | none => false
  | some qf => decide (qf ∈ d.finals)

/-- `DeterministicFiniteAutomaton::accepts`: `false` when no start state is
set, otherwise run the word from the start state. -/
def dfaAccepts {Q A : Type} [DecidableEq Q] [DecidableEq A]
    (d : Dfa Q A) (w : List A) : Bool :=
  match d.start with
  | none => false
  | some q0 => dfaAcceptsFrom d q0 w

/-- `DeterministicFiniteAutomaton::add_transition`: inserts both endpoint
states into `states_`, the symbol into `input_symbols_`, and records the
transition. -/
def dfaAddTransition {Q A : Type} [DecidableEq Q] [DecidableEq A]
    (d : Dfa Q A) (fromState : Q) (symbol : A) (toState : Q) : Dfa Q A :=
  { d with
    states := insert fromState (insert toState d.states)
    inputSymbols := insert symbol d.inputSymbols
    tf := addTransition d.tf fromState symbol toState }

/-- `DeterministicFiniteAutomaton::set_start_state`: inserts the state into
`states_`, clears `start_states_` and makes the state the unique start. -/
def dfaSetStartState {Q A : Type} [DecidableEq Q] (d : Dfa Q A) (q : Q) :
    Dfa Q A :=
  { d with states := insert q d.states, start := some q }

/-- `NondeterministicFiniteAutomaton::add_final_state` as inherited by the
Dfa: inserts the state into `states_` and into `final_states_`. -/
def dfaAddFinalState {Q A : Type} [DecidableEq Q] (d : Dfa Q A) (q : Q) :
    Dfa Q A :=
  { d with states := insert q d.states, finals := insert q d.finals }

/-- A default-constructed `DeterministicFiniteAutomaton()`. -/
def emptyDfa : Dfa String String :=
  { states := ∅, inputSymbols := ∅, tf := [], start := none, finals := ∅ }

/-- The concrete Dfa of the spec and of `DOCUMENTATION.md`: states
{q0,q1,q2}, start q0, final {q2}, transitions q0-a->q1, q0-b->q0, q1-a->q1,
q1-b->q2, q2-a->q1, q2-b->q0, assembled through the builder operations. -/
def exampleDfa : Dfa String String :=
  dfaAddTransition
    (dfaAddTransition
      (dfaAddTransition
        (dfaAddTransition
          (dfaAddTransition
            (dfaAddTransition
              (dfaAddFinalState (dfaSetStartState emptyDfa "q0") "q2")
              "q0" "a" "q1")
            "q0" "b" "q0")
          "q1" "a" "q1")
        "q1" "b" "q2")
      "q2" "a" "q1")
    "q2" "b" "q0"

/-! ## NondeterministicTransitionFunction and
NondeterministicFiniteAutomaton, from
`finite_automaton/nondeterministic_transition_function.h` and
`finite_automaton/nondeterministic_finite_automaton.h` -/

/-- Nondeterministic transition function: the
`unordered_map<(State, Symbol), StateSet>` of
`NondeterministicTransitionFunction`, flattened into its list of recorded
triples (from state, symbol, target); `add_transition` inserts into the
target set, so the map is determined by the multiset of triples. -/
abbrev NTransFun (Q A : Type) : Type := List ((Q × A) × Q)

/-- `NondeterministicTransitionFunction::get_next_states`: the set of
targets recorded for `(from_state, symbol)` (empty when none). -/
def getNextStates {Q A : Type} [DecidableEq Q] [DecidableEq A]
    (tf : NTransFun Q A) (fromState : Q) (symbol : A) : Finset Q :=
  ((tf.filter (fun e => decide (e.1 = (fromState, symbol)))).map
    (fun e => e.2)).toFinset

/-- The data of `NondeterministicFiniteAutomaton`: states, input symbols,
a nondeterministic transition function, start states, final states. -/
structure Nfa (Q A : Type) where
  states : Finset Q
  inputSymbols : Finset A
  tf : NTransFun Q A
  starts : Finset Q
  finals : Finset Q

/-- Inner loop of `NondeterministicFiniteAutomaton::accepts`: starting from
an empty `next_states`, insert `get_next_states(state, symbol)` for every
currently active state. -/
def nfaStep {Q A : Type} [DecidableEq Q] [DecidableEq A]
    (tf : NTransFun Q A) (current : Finset Q) (symbol : A) : Finset Q :=
  Finset.fold (· ∪ ·) ∅ (fun q => getNextStates tf q symbol) current

/-- `NondeterministicFiniteAutomaton::accepts`: simulate the set of active
states from `start_states_`, then return whether some active state is
final. -/
def nfaAccepts {Q A : Type} [DecidableEq Q] [DecidableEq A]
    (n : Nfa Q A) (w : List A) : Bool :=
  decide (∃ q ∈ w.foldl (nfaStep n.tf) n.starts, q ∈ n.finals)

/-! ## EpsilonNFA, from `finite_automaton/epsilon_nfa.h`.

The source stores epsilon transitions in the same
`NondeterministicTransitionFunction`, keyed by the distinguished `Epsilon`
symbol; the model keys transitions by `Option A` with `none` for epsilon. -/

/-- The data of `EpsilonNFA`: like `Nfa` but the transition relation may be
labeled by epsilon (`none`). -/
structure Enfa (Q A : Type) where
  states : Finset Q
  inputSymbols : Finset A
  trans : List (Q × Option A × Q)
  starts : Finset Q
  finals : Finset Q

/-- The builder operations of the automaton assembly API:
`add_transition`, `add_start_state` and `add_final_state` (inherited from
`NondeterministicFiniteAutomaton`) and `EpsilonNFA::add_epsilon_transition`. -/
inductive BuilderOp (Q A : Type) where
  | addTrans (fromState : Q) (symbol : A) (toState : Q)
  | addStart (q : Q)
  | addFinal (q : Q)
  | addEpsTrans (fromState : Q) (toState : Q)

/-- One builder operation applied to an `EpsilonNFA`, following the source:
each operation first inserts every state it mentions into `states_`. -/
def applyOp {Q A : Type} [DecidableEq Q] [DecidableEq A]
    (n : Enfa Q A) : BuilderOp Q A → Enfa Q A
  | .addTrans p a q =>
      { n with
        states := insert p (insert q n.states)
        inputSymbols := insert a n.inputSymbols
        trans := (p, some a, q) :: n.trans }
  | .addStart q =>
      { n with states := insert q n.states, starts := insert q n.starts }
  | .addFinal q =>
      { n with states := insert q n.states, finals := insert q n.finals }
  | .addEpsTrans p q =>
      { n with
        states := insert p (insert q n.states)
        trans := (p, none, q) :: n.trans }

/-- A sequence of builder operations applied in order. -/
def applyOps {Q A : Type} [DecidableEq Q] [DecidableEq A]
    (n : Enfa Q A) (ops : List (BuilderOp Q A)) : Enfa Q A :=
  ops.foldl applyOp n

/-- The state-set invariant of the spec data model: every state appearing
in the transition relation, the start set or the final set is a member of
the automaton's state set. -/
def enfaInv {Q A : Type} (n : Enfa Q A) : Prop :=
  (∀ t ∈ n.trans, t.1 ∈ n.states ∧ t.2.2 ∈ n.states) ∧
    n.starts ⊆ n.states ∧ n.finals ⊆ n.states

instance {Q A : Type} [DecidableEq Q] (n : Enfa Q A) :
    Decidable (enfaInv n) := by
  unfold enfaInv; infer_instance

/-- A default-constructed `EpsilonNFA()`. -/
def emptyEnfa : Enfa String String :=
  { states := ∅, inputSymbols := ∅, trans := [], starts := ∅, finals := ∅ }

/-- An `EpsilonNFA` built by the public constructor with a start state that
is not placed in the state set (the constructor copies the caller's sets
without folding start or final states into `states_`). -/
def badEnfa : Enfa String String :=
  { states := ∅, inputSymbols := ∅, trans := [], starts := {"q"}, finals := ∅ }

/-! ## Sequences of `TransitionFunction::add_transition` calls (for the
overwrite semantics of the deterministic map). -/

/-- A list of `add_transition(from, symbol, to)` calls applied in order. -/
def applyAdds {Q A : Type} (tf : TransFun Q A)
    (ops : List (Q × A × Q)) : TransFun Q A :=
  ops.foldl (fun t e => addTransition t e.1 e.2.1 e.2.2) tf

/-- The most recently added target for a key in a list of
`add_transition` calls, written directly from the calls. -/
def lastAdded {Q A : Type} [DecidableEq Q] [DecidableEq A] :
    List (Q × A × Q) → Q → A → Option Q
  | [], _, _ => none
  | e :: rest, q, a =>
      match lastAdded rest q a with
      | some r => some r
      | none => if e.1 = q ∧ e.2.1 = a then some e.2.2 else none

/-! ## Completion and complement, from
`DeterministicFiniteAutomaton::is_complete / make_complete / complement` -/

/-- `DeterministicFiniteAutomaton::is_complete`: every (state, symbol) pair
drawn from `states_` and `input_symbols_` has a transition. -/
def isComplete {Q A : Type} [DecidableEq Q] [DecidableEq A]
    (d : Dfa Q A) : Bool :=
  decide (∀ q ∈ d.states, ∀ a ∈ d.inputSymbols, (getNextState d.tf q a).isSome = true)

/-- Iteration order chosen for a `std::unordered_set<std::string>` whose
traversal order the source leaves unspecified. -/
def setList (s : Finset String) : List String :=
  s.sort (· ≤ ·)

/-- `DeterministicFiniteAutomaton::make_complete`: return a copy when
already complete; otherwise insert a fresh `State("sink")`, fill every
missing (state, symbol) transition with the sink, then add sink self-loops
on every symbol. -/
def makeComplete (d : Dfa String String) : Dfa String String :=
  if isComplete d then d
  else
    let states2 := insert "sink" d.states
    let tf2 := (setList states2).foldl (fun tf q =>
        (setList d.inputSymbols).foldl (fun tf a =>
          if (getNextState tf q a).isSome then tf
          else addTransition tf q a "sink") tf) d.tf
    let tf3 := (setList d.inputSymbols).foldl (fun tf a =>
        addTransition tf "sink" a "sink") tf2
    { d with states := states2, tf := tf3 }

/-- `DeterministicFiniteAutomaton::complement`: complete the automaton,
rebuild it through the constructor (same states, symbols, transition
function and start state; the constructor re-inserts the start state into
`states_`), then `add_final_state` every state of the completed automaton
that is not final there (each call also re-inserts the state). -/
def dfaComplement (d : Dfa String String) : Dfa String String :=
  let c := makeComplete d
  let baseStates := match c.start with
    | some s => insert s c.states
    | none => c.states
  let newFinals := c.states.filter (fun q => q ∉ c.finals)
  { states := baseStates ∪ newFinals
    inputSymbols := c.inputSymbols
    tf := c.tf
    start := c.start
    finals := newFinals }

/-! ## CFG objects and productions, from `cfg/cfg_object.h`, `cfg/variable.h`,
`cfg/terminal.h`, `cfg/epsilon.h`, `cfg/production.h`.

A grammar symbol is one of the three concrete `CFGObject` kinds; the model
identifies a symbol by its kind and label, which matches the source as long
as each grammar object is the single shared instance the repository's tests
and examples create per symbol. -/

/-- A `CFGObject`: a `Variable`, a `Terminal`, or the distinguished
`Epsilon`. -/
inductive CObj where
  | var (label : String)
  | term (label : String)
  | eps
deriving DecidableEq, Repr

/-- A `Production`: a head variable and a body of CFG objects.  (With the
default `filtering = true` the constructor drops `Epsilon` objects from the
body; bodies here are whatever the constructor stored.) -/
structure Production where
  head : String
  body : List CObj
deriving DecidableEq, Repr

/-- `Production`'s constructor with `filtering = true`: epsilon objects are
removed from the body. -/
def mkProduction (head : String) (body : List CObj) : Production :=
  { head := head, body := body.filter (fun x => decide (x ≠ CObj.eps)) }

/-! ## CFG::get_generating_or_nullable, from `src/cfg/cfg.cpp`.

The C++ loop keeps a growing set `g_symbols` and a FIFO queue `to_process`;
while the queue is nonempty it pops one element and scans every production
once, adding the head (and pushing it) whenever the head is not yet in the
set and every body symbol is.  The pop count bounds the number of scans, so
the loop is modelled with explicit fuel, one unit per pop; `worklist`
returns `none` only on fuel exhaustion, and the supplied fuel is proved
sufficient. -/

/-- One full scan of the production list (the inner `for` over
`productions_`): returns the grown set together with the list of newly
added heads, in the order they were pushed onto the queue. -/
def scanPass : List Production → Finset CObj → Finset CObj × List CObj
  | [], g => (g, [])
  | p :: ps, g =>
      if CObj.var p.head ∈ g then scanPass ps g
      else if p.body.all (fun x => decide (x ∈ g)) then
        let r := scanPass ps (insert (CObj.var p.head) g)
        (r.1, CObj.var p.head :: r.2)
      else scanPass ps g

/-- The outer `while (!to_process.empty())` loop: pop the front of the
queue, scan all productions, append the newly pushed heads behind the
remaining queue. -/
def worklist (prods : List Production) :
    Nat → Finset CObj → List CObj → Option (Finset CObj)
  | _, g, [] => some g
  | 0, _, _ :: _ => none
  | fuel + 1, g, _ :: rest =>
      let r := scanPass prods g
      worklist prods fuel r.1 (rest ++ r.2)

/-- The seed set: `{epsilon}` for the nullable analysis, `{epsilon}` plus
every terminal for the generating analysis. -/
def seedSet (terminals : Finset String) (nullable : Bool) : Finset CObj :=
  if nullable then {CObj.eps}
  else insert CObj.eps (terminals.image CObj.term)

/-- The initial queue contents, pushed in source order: epsilon first, then
(for the generating analysis) every terminal. -/
def seedQueue (terminals : Finset String) (nullable : Bool) : List CObj :=
  if nullable then [CObj.eps]
  else CObj.eps :: (setList terminals).map CObj.term

/-- The heads that the loop could ever add. -/
def headSet (prods : List Production) : Finset CObj :=
  (prods.map (fun p => CObj.var p.head)).toFinset

/-- `CFG::get_generating_or_nullable`: run the worklist loop from the seed,
then erase epsilon from the result.  The fuel is one unit per possible pop:
each pop consumes one queue element, and each added head enqueues one. -/
def getGeneratingOrNullable (terminals : Finset String)
    (prods : List Production) (nullable : Bool) : Option (Finset CObj) :=
  let fuel := (seedQueue terminals nullable).length + 2 * (headSet prods).card + 1
  (worklist prods fuel (seedSet terminals nullable)
      (seedQueue terminals nullable)).map (fun g => g.erase CObj.eps)

/-- Closedness of a symbol set under a production list: whenever every body
symbol of a production lies in the set, so does its head. -/
def ClosedUnder (prods : List Production) (g : Finset CObj) : Prop :=
  ∀ p ∈ prods, (∀ x ∈ p.body, x ∈ g) → CObj.var p.head ∈ g

/-! ## The CFG object with its lazily populated cache fields, from
`cfg/cfg.h`: `generating_symbols_` and `nullable_symbols_` are
`std::optional` members filled on first use by `get_generating_symbols` /
`get_nullable_symbols`; `normal_form_` backs `to_normal_form` (whose body
is a placeholder returning `nullptr` without touching the field). -/

/-- A total wrapper for the worklist analysis; the supplied fuel is proved
sufficient, so the default is never reached. -/
def analysisResult (terminals : Finset String) (prods : List Production)
    (nullable : Bool) : Finset CObj :=
  (getGeneratingOrNullable terminals prods nullable).getD ∅

/-- The `CFG` object: the grammar value (variables, terminals, start
symbol, productions) together with the mutable cache fields. -/
structure Cfg where
  vars : Finset String
  terminals : Finset String
  startSymbol : Option String
  productions : List Production
  generatingCache : Option (Finset CObj)
  nullableCache : Option (Finset CObj)
deriving DecidableEq

/-- `CFG::get_generating_symbols`: return the cached set when present,
otherwise compute `get_generating_or_nullable(false)`, store it in
`generating_symbols_` and return it.  The pair is (returned set, object
after the call). -/
def getGeneratingSymbols (c : Cfg) : Finset CObj × Cfg :=
  match c.generatingCache with
  | some v => (v, c)
  | none =>
      let v := analysisResult c.terminals c.productions false
      (v, { c with generatingCache := some v })

/-- `CFG::get_nullable_symbols`: same caching pattern with
`get_generating_or_nullable(true)` and `nullable_symbols_`. -/
def getNullableSymbols (c : Cfg) : Finset CObj × Cfg :=
  match c.nullableCache with
  | some v => (v, c)
  | none =>
      let v := analysisResult c.terminals c.productions true
      (v, { c with nullableCache := some v })

/-- `CFG::to_normal_form`: a placeholder that returns `nullptr` and leaves
the object untouched. -/
def toNormalForm (c : Cfg) : Option Cfg × Cfg :=
  (none, c)

/-- A concrete grammar object with empty caches, as produced by the `CFG`
constructor (which initializes both optionals to `nullopt`). -/
def exampleCfg : Cfg :=
  { vars := {"S"}
    terminals := {"a"}
    startSymbol := some "S"
    productions := [mkProduction "S" [CObj.term "a"]]
    generatingCache := none
    nullableCache := none }

/-! ## Equality of the distinguished Epsilon symbols, from
`finite_automaton/epsilon.h`, `finite_automaton/symbol.h`,
`cfg/epsilon.h`, `cfg/cfg_object.h`.

The `operator==` overloads are not virtual, so the operator that runs is
chosen from the static type of the left operand; the model carries the
dynamic type as a tag and provides one function per overload. -/

/-- A `finite_automaton` symbol value: its dynamic type (`Epsilon` or plain
`Symbol`) and its label.  `Epsilon()` constructs `Symbol("ε")`. -/
structure FASym where
  isEpsilonObj : Bool
  value : String
deriving DecidableEq

/-- A plain `Symbol(value)`. -/
def mkFASymbol (value : String) : FASym := { isEpsilonObj := false, value := value }

/-- The `Epsilon()` object: a `Symbol` whose label is "ε". -/
def faEpsilon : FASym := { isEpsilonObj := true, value := "ε" }

/-- `Symbol::operator==(const Symbol&)`: label comparison.  This overload
runs whenever the left operand's static type is `Symbol` — in particular
inside the transition-function hash maps, which compare symbols through the
base type. -/
def symbolEq (a b : FASym) : Bool := a.value == b.value

/-- `Epsilon::operator==(const Epsilon&)`: always true. -/
def epsilonEqEpsilon (_a _b : FASym) : Bool := true

/-- `Epsilon::operator==(const Symbol&)`: true exactly when the right
operand is dynamically an `Epsilon` (`dynamic_cast` test); the label is not
consulted. -/
def epsilonEqSymbol (_a b : FASym) : Bool := b.isEpsilonObj

/-- A `cfg` object value: its dynamic type tag (the `type()` string
"Variable" / "Terminal" / "Epsilon") and its label.  `cfg::Epsilon()`
constructs `CFGObject("ε")`. -/
structure CfgObjV where
  kind : String
  value : String
deriving DecidableEq

/-- A `Terminal(value)`. -/
def mkCfgTerminal (value : String) : CfgObjV := { kind := "Terminal", value := value }

/-- A `Variable(value)`. -/
def mkCfgVariable (value : String) : CfgObjV := { kind := "Variable", value := value }

/-- The `cfg::Epsilon()` object. -/
def cfgEpsilon : CfgObjV := { kind := "Epsilon", value := "ε" }

/-- `CFGObject::operator==(const CFGObject&)`: label comparison; runs
whenever the left operand's static type is `CFGObject`, `Variable` or
`Terminal`. -/
def cfgObjectEq (a b : CfgObjV) : Bool := a.value == b.value

/-- `cfg::Epsilon::operator==(const CFGObject&)`: true exactly when the
right operand is dynamically an `Epsilon`. -/
def cfgEpsilonEqObject (_a b : CfgObjV) : Bool := b.kind == "Epsilon"

/-! ## Regex expression trees and the parser, from
`regular_expression/regex_objects.h` and `regular_expression/regex.cpp`. -/

/-- A `RegexObject` tree. -/
inductive Rgx where
  | symbol (value : String)
  | eps
  | emptyLanguage
  | concat (left right : Rgx)
  | unionNode (left right : Rgx)
  | star (inner : Rgx)
deriving DecidableEq, Repr

/-- `Regex::parse`: the placeholder body shipped in the source — an empty
string becomes `Epsilon`, anything else becomes a `Symbol` holding the
first character; no input is ever rejected and `RegexParsingException` is
never thrown. -/
def regexParse (s : String) : Rgx :=
  if s.isEmpty then Rgx.eps
  else Rgx.symbol (s.take 1)

/-! ## Epsilon-closure, epsilon-NFA acceptance and subset construction.

In the source, `EpsilonNFA::epsilon_closure`, `EpsilonNFA::accepts` and
`EpsilonNFA::to_deterministic` are placeholder stubs ("Implementation will
be added"); the definitions below are modelled from spec §4.1. -/

/-- The symbols on which the automaton can move: its declared alphabet
together with every symbol labelling a transition. -/
def symsOf {Q A : Type} [DecidableEq A] (n : Enfa Q A) : Finset A :=
  n.inputSymbols ∪ (n.trans.filterMap (fun t => t.2.1)).toFinset

/-- Every state the automaton mentions: the state set, start and final
sets, and both endpoints of every transition. -/
def univStates {Q A : Type} [DecidableEq Q] (n : Enfa Q A) : Finset Q :=
  n.states ∪ n.starts ∪ n.finals ∪ (n.trans.map (fun t => t.1)).toFinset ∪
    (n.trans.map (fun t => t.2.2)).toFinset

/-- Targets of the transitions from a state on a (non-epsilon) symbol. -/
def nextOn {Q A : Type} [DecidableEq Q] [DecidableEq A]
    (n : Enfa Q A) (q : Q) (a : A) : Finset Q :=
  ((n.trans.filter (fun t => decide (t.1 = q ∧ t.2.1 = some a))).map
    (fun t => t.2.2)).toFinset

/-- Targets of the epsilon transitions from a state. -/
def epsNext {Q A : Type} [DecidableEq Q] [DecidableEq A]
    (n : Enfa Q A) (q : Q) : Finset Q :=
  ((n.trans.filter (fun t => decide (t.1 = q ∧ t.2.1 = none))).map
    (fun t => t.2.2)).toFinset

/-- One round of the closure computation: add every state reachable from
the current set by one epsilon transition. -/
def ecloseStep {Q A : Type} [DecidableEq Q] [DecidableEq A]
    (n : Enfa Q A) (t : Finset Q) : Finset Q :=
  t ∪ t.biUnion (epsNext n)

/-- Modelled from the spec: `EpsilonNFA::epsilon_closure` is a placeholder
stub in the source; spec §4.1 prescribes repeatedly adding every state
reachable by one epsilon transition until no new state is added.  One round
per state of the automaton suffices for the iteration to stabilize. -/
def eclose {Q A : Type} [DecidableEq Q] [DecidableEq A]
    (n : Enfa Q A) (s : Finset Q) : Finset Q :=
  (ecloseStep n)^[(univStates n).card] s

/-- Modelled from the spec: the active-set update of epsilon-extended
acceptance — for a symbol, the union over the active states of the
epsilon-closures of their transition targets. -/
def enfaStep {Q A : Type} [DecidableEq Q] [DecidableEq A]
    (n : Enfa Q A) (s : Finset Q) (a : A) : Finset Q :=
  s.biUnion (fun q => eclose n (nextOn n q a))

/-- Modelled from the spec: `EpsilonNFA::accepts` is a placeholder stub in
the source; spec §4.1 — close the start set, update the active set for each
symbol, accept iff the final active set intersects the final states. -/
def enfaAccepts {Q A : Type} [DecidableEq Q] [DecidableEq A]
    (n : Enfa Q A) (w : List A) : Bool :=
  decide ((w.foldl (enfaStep n) (eclose n n.starts) ∩ n.finals).Nonempty)

/-- The subset-construction transition: union of the transition targets
from every state of the subset, then its epsilon-closure. -/
def detStep {Q A : Type} [DecidableEq Q] [DecidableEq A]
    (n : Enfa Q A) (s : Finset Q) (a : A) : Finset Q :=
  eclose n (s.biUnion (fun q => nextOn n q a))

/-- A list enumerating every subset of a finite set of strings (as the
`toFinset` images of the sublists of its sorted element list). -/
def subsetsList (u : Finset String) : List (Finset String) :=
  (setList u).sublists.map List.toFinset

/-- Key enumeration for the constructed deterministic transition function:
every (subset, alphabet symbol) pair; the worklist of the spec enumerates
exactly the reachable ones, which never changes a lookup along a run. -/
def detKeys (n : Enfa String String) : List (Finset String × String) :=
  (subsetsList (univStates n)).flatMap
    (fun s => (setList (symsOf n)).map (fun a => (s, a)))

/-- Modelled from the spec: `EpsilonNFA::to_deterministic` is a placeholder
stub in the source; spec §4.1 subset construction — deterministic states
are sets of old states, the start state is the epsilon-closure of the old
start set, the transition from a subset on a symbol is `detStep`, and a
subset is final iff it intersects the old final set. -/
def toDeterministic (n : Enfa String String) : Dfa (Finset String) String :=
  { states := (univStates n).powerset
    inputSymbols := symsOf n
    tf := (detKeys n).map (fun k => (k, detStep n k.1 k.2))
    start := some (eclose n n.starts)
    finals := (univStates n).powerset.filter (fun s => (s ∩ n.finals).Nonempty) }

/-! ## Shared lemmas -/

/-- One `add_transition` followed by a lookup: the new key wins, other keys
fall through. -/
theorem getNextState_addTransition {Q A : Type} [DecidableEq Q] [DecidableEq A]
    (tf : TransFun Q A) (q : Q) (a : A) (t : Q) (q' : Q) (a' : A) :
    getNextState (addTransition tf q a t) q' a' =
      if (q, a) = (q', a') then some t else getNextState tf q' a' := rfl

/-- Lookup through a sequence of `add_transition` calls: the most recently
added target for the key when there is one, otherwise the lookup in the
initial map. -/
theorem getNextState_applyAdds {Q A : Type} [DecidableEq Q] [DecidableEq A]
    (ops : List (Q × A × Q)) (tf : TransFun Q A) (q : Q) (a : A) :
    getNextState (applyAdds tf ops) q a =
      match lastAdded ops q a with
      | some t => some t
      | none => getNextState tf q a := by
  induction ops generalizing tf with
  | nil => rfl
  | cons e ops ih =>
      show getNextState (applyAdds (addTransition tf e.1 e.2.1 e.2.2) ops) q a = _
      rw [ih]
      cases h : lastAdded ops q a with
      | some r => simp [lastAdded, h]
      | none =>
          simp only [lastAdded, h, getNextState_addTransition, Prod.mk.injEq]
          by_cases hqa : e.1 = q ∧ e.2.1 = a
          · simp [hqa]
          · simp [hqa]

/-- The source-level active-state update of the NFA equals the union of the
per-state target sets. -/
theorem nfaStep_eq_biUnion {Q A : Type} [DecidableEq Q] [DecidableEq A]
    (tf : NTransFun Q A) (s : Finset Q) (a : A) :
    nfaStep tf s a = s.biUnion (fun q => getNextStates tf q a) := by
  rw [show nfaStep tf s a = s.sup (fun q => getNextStates tf q a) from rfl,
    Finset.sup_eq_biUnion]

/-! ## Claim theorems -/

/-- C3: the concrete DFA with states {q0,q1,q2}, start q0, final {q2} and
transitions q0-a->q1, q0-b->q0, q1-a->q1, q1-b->q2, q2-a->q1, q2-b->q0
rejects the empty word, accepts "ab" and "bab", and rejects "b". -/
theorem C3_example_dfa_accepts :
    dfaAccepts exampleDfa [] = false ∧
    dfaAccepts exampleDfa ["a", "b"] = true ∧
    dfaAccepts exampleDfa ["b", "a", "b"] = true ∧
    dfaAccepts exampleDfa ["b"] = false :=
  ⟨by decide, by decide, by decide, by decide⟩

/-- C9: evaluating `Regex::parse` on malformed inputs — an unmatched
parenthesis, an operator in operand position and a trailing operator — the
placeholder parser returns a `Symbol` tree built from the first character
instead of failing with a parse error. -/
theorem C9_regex_parse_never_fails :
    regexParse "(" = Rgx.symbol "(" ∧
    regexParse "+a" = Rgx.symbol "+" ∧
    regexParse "a+" = Rgx.symbol "a" :=
  ⟨by decide, by decide, by decide⟩

/-- C6 counterexample: a plain labeled symbol whose text equals epsilon's
("ε") compares equal to an `Epsilon` object under the `Symbol` /
`CFGObject` equality operator (the one that runs whenever the left operand
is not statically an `Epsilon`), so equality does identify `Epsilon` with a
plain symbol carrying the same text. -/
theorem C6_counterexample :
    symbolEq (mkFASymbol "ε") faEpsilon = true ∧
    cfgObjectEq (mkCfgTerminal "ε") cfgEpsilon = true :=
  ⟨rfl, rfl⟩

/-- C6 amended: every `Epsilon` equals every `Epsilon`; `Epsilon`'s own
operator== ignores labels and returns false on every non-`Epsilon` operand;
but the `Symbol`/`CFGObject` operator== compares only label text, so a
plain symbol labeled "ε" compares equal to `Epsilon` whenever that
inherited operator is the one selected. -/
theorem C6_epsilon_equality_amended :
    ∀ (v : String) (b : FASym) (c : CfgObjV),
      epsilonEqEpsilon faEpsilon faEpsilon = true ∧
      epsilonEqSymbol faEpsilon b = b.isEpsilonObj ∧
      epsilonEqSymbol faEpsilon (mkFASymbol v) = false ∧
      symbolEq (mkFASymbol v) faEpsilon = (v == "ε") ∧
      cfgEpsilonEqObject cfgEpsilon c = (c.kind == "Epsilon") ∧
      cfgEpsilonEqObject cfgEpsilon (mkCfgTerminal v) = false ∧
      cfgEpsilonEqObject cfgEpsilon (mkCfgVariable v) = false ∧
      cfgObjectEq (mkCfgVariable v) cfgEpsilon = (v == "ε") := by
  intro v b c
  exact ⟨rfl, rfl, rfl, rfl, rfl, rfl, rfl, rfl⟩

/-- C10: `TransitionFunction::add_transition` silently overwrites — a
lookup right after an add returns the new target — and after any sequence
of `add_transition` calls starting from the empty map, `get_next_state`
returns, for each (state, symbol) pair, exactly the most recently added
target for that pair (or nothing). -/
theorem C10_add_transition_overwrites :
    (∀ (tf : TransFun String String) (q a t : String),
      getNextState (addTransition tf q a t) q a = some t) ∧
    (∀ (ops : List (String × String × String)) (q a : String),
      getNextState (applyAdds [] ops) q a = lastAdded ops q a) := by
  constructor
  · intro tf q a t
    rw [getNextState_addTransition, if_pos rfl]
  · intro ops q a
    rw [getNextState_applyAdds]
    cases lastAdded ops q a <;> rfl

/-- One builder operation preserves the state-set invariant. -/
theorem applyOp_preserves_inv {Q A : Type} [DecidableEq Q] [DecidableEq A]
    (n : Enfa Q A) (op : BuilderOp Q A) (h : enfaInv n) :
    enfaInv (applyOp n op) := by
  obtain ⟨ht, hs, hf⟩ := h
  cases op with
  | addTrans p a q =>
      refine ⟨?_, ?_, ?_⟩
      · intro t htl
        rcases List.mem_cons.mp htl with h1 | h1
        · subst h1; simp [applyOp]
        · have := ht t h1
          simp only [applyOp]
          exact ⟨Finset.mem_insert_of_mem (Finset.mem_insert_of_mem this.1),
            Finset.mem_insert_of_mem (Finset.mem_insert_of_mem this.2)⟩
      · exact hs.trans (Finset.Subset.trans (Finset.subset_insert _ _)
          (Finset.subset_insert _ _))
      · exact hf.trans (Finset.Subset.trans (Finset.subset_insert _ _)
          (Finset.subset_insert _ _))
  | addStart q =>
      refine ⟨?_, ?_, ?_⟩
      · intro t htl
        have := ht t htl
        exact ⟨Finset.mem_insert_of_mem this.1, Finset.mem_insert_of_mem this.2⟩
      · exact Finset.insert_subset_insert _ hs
      · exact hf.trans (Finset.subset_insert _ _)
  | addFinal q =>
      refine ⟨?_, ?_, ?_⟩
      · intro t htl
        have := ht t htl
        exact ⟨Finset.mem_insert_of_mem this.1, Finset.mem_insert_of_mem this.2⟩
      · exact hs.trans (Finset.subset_insert _ _)
      · exact Finset.insert_subset_insert _ hf
  | addEpsTrans p q =>
      refine ⟨?_, ?_, ?_⟩
      · intro t htl
        rcases List.mem_cons.mp htl with h1 | h1
        · subst h1; simp [applyOp]
        · have := ht t h1
          exact ⟨Finset.mem_insert_of_mem (Finset.mem_insert_of_mem this.1),
            Finset.mem_insert_of_mem (Finset.mem_insert_of_mem this.2)⟩
      · exact hs.trans (Finset.Subset.trans (Finset.subset_insert _ _)
          (Finset.subset_insert _ _))
      · exact hf.trans (Finset.Subset.trans (Finset.subset_insert _ _)
          (Finset.subset_insert _ _))

/-- C8 counterexample: an automaton built by the public constructor with a
start state that was never folded into the state set still violates the
invariant after a builder operation (`add_final_state`) — the claim's
universal statement over every automaton fails. -/
theorem C8_counterexample :
    ¬ enfaInv (applyOps badEnfa [BuilderOp.addFinal "r"]) := by decide

/-- C8 amended: every builder operation (add_transition, add_start_state,
add_final_state, add_epsilon_transition) inserts the states it mentions
into the state set and preserves the invariant that every state appearing
in the transition relation, start set or final set belongs to the state
set; hence any automaton assembled by builder operations from an automaton
satisfying the invariant (in particular a default-constructed one)
satisfies it.  Automata seeded through the constructor with unchecked sets
need not. -/
theorem C8_builder_ops_preserve_invariant
    (n : Enfa String String) (ops : List (BuilderOp String String))
    (h : enfaInv n) : enfaInv (applyOps n ops) := by
  induction ops generalizing n with
  | nil => exact h
  | cons op ops ih => exact ih _ (applyOp_preserves_inv n op h)

/-- C8 witness: the invariant holds after a concrete builder sequence from
the default-constructed automaton. -/
theorem C8_witness :
    enfaInv (applyOps emptyEnfa
      [BuilderOp.addStart "q0", BuilderOp.addTrans "q0" "a" "q1",
        BuilderOp.addEpsTrans "q1" "q2", BuilderOp.addFinal "q2"]) :=
  C8_builder_ops_preserve_invariant emptyEnfa _ (by decide)

/-- C7 counterexample: on a grammar whose caches are empty (as the `CFG`
constructor creates them), `get_nullable_symbols` stores its result in the
`nullable_symbols_` field — the mutable cache the claim says does not
exist; the field changes from `nullopt` to a computed set. -/
theorem C7_counterexample :
    exampleCfg.nullableCache = none ∧
    (getNullableSymbols exampleCfg).2.nullableCache = some ∅ :=
  ⟨rfl, by decide⟩

/-- C7 amended: the analyses are pure functions of the grammar value — the
variables, terminals, start symbol and productions are untouched, the
returned set is determined by terminals and productions alone, and
`to_normal_form` (a placeholder) changes nothing — but
`get_generating_symbols` and `get_nullable_symbols` memoize their result
inside the object: after a call the corresponding cache field holds the
returned set (the other cache field is untouched). -/
theorem C7_analyses_pure_but_cached :
    ∀ c : Cfg,
      (getNullableSymbols c).2.vars = c.vars ∧
      (getNullableSymbols c).2.terminals = c.terminals ∧
      (getNullableSymbols c).2.startSymbol = c.startSymbol ∧
      (getNullableSymbols c).2.productions = c.productions ∧
      (getNullableSymbols c).1 =
        c.nullableCache.getD (analysisResult c.terminals c.productions true) ∧
      (getNullableSymbols c).2.nullableCache =
        some (c.nullableCache.getD (analysisResult c.terminals c.productions true)) ∧
      (getNullableSymbols c).2.generatingCache = c.generatingCache ∧
      (getGeneratingSymbols c).2.vars = c.vars ∧
      (getGeneratingSymbols c).2.terminals = c.terminals ∧
      (getGeneratingSymbols c).2.startSymbol = c.startSymbol ∧
      (getGeneratingSymbols c).2.productions = c.productions ∧
      (getGeneratingSymbols c).1 =
        c.generatingCache.getD (analysisResult c.terminals c.productions false) ∧
      (getGeneratingSymbols c).2.generatingCache =
        some (c.generatingCache.getD (analysisResult c.terminals c.productions false)) ∧
      (getGeneratingSymbols c).2.nullableCache = c.nullableCache ∧
      toNormalForm c = (none, c) := by
  intro c
  cases hn : c.nullableCache <;> cases hg : c.generatingCache <;>
    simp [getNullableSymbols, getGeneratingSymbols, toNormalForm, hn, hg]

/-- C2: the nondeterministic `accepts` simulates the set of active states —
the step is the union of transition targets over all active states, a word
is accepted iff the final active set intersects the final-state set, and
the empty word is accepted iff some start state is final. -/
theorem C2_nfa_accepts_simulates (n : Nfa String String) (w : List String) :
    (nfaAccepts n w = true ↔
      ((w.foldl (fun s a => s.biUnion (fun q => getNextStates n.tf q a))
          n.starts) ∩ n.finals).Nonempty) ∧
    (nfaAccepts n [] = true ↔ (n.starts ∩ n.finals).Nonempty) := by
  have hstep : nfaStep n.tf =
      fun s a => s.biUnion (fun q => getNextStates n.tf q a) :=
    funext fun s => funext fun a => nfaStep_eq_biUnion n.tf s a
  constructor
  · rw [nfaAccepts, hstep, decide_eq_true_iff]
    constructor
    · rintro ⟨q, hq, hqf⟩
      exact ⟨q, Finset.mem_inter.mpr ⟨hq, hqf⟩⟩
    · rintro ⟨q, hq⟩
      exact ⟨q, (Finset.mem_inter.mp hq).1, (Finset.mem_inter.mp hq).2⟩
  · rw [nfaAccepts, decide_eq_true_iff]
    constructor
    · rintro ⟨q, hq, hqf⟩
      exact ⟨q, Finset.mem_inter.mpr ⟨hq, hqf⟩⟩
    · rintro ⟨q, hq⟩
      exact ⟨q, (Finset.mem_inter.mp hq).1, (Finset.mem_inter.mp hq).2⟩

/-- One lookup step of a DFA run on an existing transition. -/
theorem runDfa_cons_some {Q A : Type} [DecidableEq Q] [DecidableEq A]
    (tf : TransFun Q A) (q q1 : Q) (a : A) (w : List A)
    (h : getNextState tf q a = some q1) :
    runDfa tf q (a :: w) = runDfa tf q1 w := by
  simp [runDfa, h]

/-- A successful lookup returns the target of some recorded transition. -/
theorem getNextState_target_mem {Q A : Type} [DecidableEq Q] [DecidableEq A]
    {tf : TransFun Q A} {P : Q → Prop} (h : ∀ e ∈ tf, P e.2) :
    ∀ q a q', getNextState tf q a = some q' → P q' := by
  intro q a q' hget
  induction tf with
  | nil => exact absurd hget (by simp [getNextState])
  | cons e rest ih =>
      rw [show getNextState (e :: rest) q a =
        (if e.1 = (q, a) then some e.2 else getNextState rest q a) from rfl] at hget
      by_cases hk : e.1 = (q, a)
      · rw [if_pos hk] at hget
        exact Option.some.inj hget ▸ h e (List.mem_cons_self e rest)
      · rw [if_neg hk] at hget
        exact ih (fun e he => h e (List.mem_cons_of_mem _ he)) hget

/-- On a complete transition function whose targets stay inside the state
set, a run over alphabet symbols never fails and ends inside the state
set. -/
theorem runDfa_total {Q A : Type} [DecidableEq Q] [DecidableEq A]
    (tf : TransFun Q A) (states : Finset Q) (alpha : Finset A)
    (hcomp : ∀ q ∈ states, ∀ a ∈ alpha, (getNextState tf q a).isSome = true)
    (htgt : ∀ e ∈ tf, e.2 ∈ states) :
    ∀ (w : List A) (q : Q), q ∈ states → (∀ a ∈ w, a ∈ alpha) →
      ∃ qf, runDfa tf q w = some qf ∧ qf ∈ states := by
  intro w
  induction w with
  | nil => exact fun q hq _ => ⟨q, rfl, hq⟩
  | cons a w ih =>
      intro q hq hw
      have ha : a ∈ alpha := hw a (List.mem_cons_self a w)
      obtain ⟨q1, hq1⟩ := Option.isSome_iff_exists.mp (hcomp q hq a ha)
      have hq1s : q1 ∈ states := getNextState_target_mem htgt q a q1 hq1
      obtain ⟨qf, hrun, hqf⟩ := ih q1 hq1s (fun b hb => hw b (List.mem_cons_of_mem _ hb))
      exact ⟨qf, (runDfa_cons_some tf q q1 a w hq1).trans hrun, hqf⟩

/-- C4: for a complete DFA (one whose transition targets lie in its state
set, with its start state in the state set, per the data-model invariant)
and any word over its alphabet, the complement has the same states,
symbols, transitions and start state, its final states are exactly the
non-final states, and exactly one of the automaton and its complement
accepts the word. -/
theorem C4_complement_exactly_one (d : Dfa String String) (q0 : String)
    (w : List String)
    (hstart : d.start = some q0) (hq0 : q0 ∈ d.states)
    (hcomp : isComplete d = true)
    (htgt : ∀ e ∈ d.tf, e.2 ∈ d.states)
    (hw : ∀ a ∈ w, a ∈ d.inputSymbols) :
    (dfaComplement d).states = d.states ∧
    (dfaComplement d).inputSymbols = d.inputSymbols ∧
    (dfaComplement d).tf = d.tf ∧
    (dfaComplement d).start = d.start ∧
    (dfaComplement d).finals = d.states \ d.finals ∧
    dfaAccepts (dfaComplement d) w = !dfaAccepts d w := by
  have hmc : makeComplete d = d := by
    rw [makeComplete, if_pos hcomp]
  have hsub : d.states.filter (fun q => q ∉ d.finals) ⊆ d.states :=
    Finset.filter_subset _ _
  have hst : (dfaComplement d).states = d.states := by
    simp only [dfaComplement, hmc, hstart]
    rw [Finset.insert_eq_self.mpr hq0, Finset.union_eq_left.mpr hsub]
  have hin : (dfaComplement d).inputSymbols = d.inputSymbols := by
    simp only [dfaComplement, hmc]
  have htf : (dfaComplement d).tf = d.tf := by
    simp only [dfaComplement, hmc]
  have hstc : (dfaComplement d).start = d.start := by
    simp only [dfaComplement, hmc]
  have hfin : (dfaComplement d).finals = d.states \ d.finals := by
    simp only [dfaComplement, hmc]
    rw [Finset.sdiff_eq_filter]
  refine ⟨hst, hin, htf, hstc, hfin, ?_⟩
  have hcomp' := of_decide_eq_true hcomp
  obtain ⟨qf, hrun, hqf⟩ :=
    runDfa_total d.tf d.states d.inputSymbols hcomp' htgt w q0 hq0 hw
  have hruns : runDfa (dfaComplement d).tf q0 w = some qf := by
    rw [htf]; exact hrun
  rw [dfaAccepts, dfaAccepts, hstart,
    show (dfaComplement d).start = some q0 from hstc.trans hstart]
  simp only [dfaAcceptsFrom, hrun, hruns, hfin]
  simp [Finset.mem_sdiff, hqf]

/-- C4 witness: the concrete DFA of the documentation is complete and the
exactly-one property holds on it for the word "a". -/
theorem C4_witness :
    isComplete exampleDfa = true ∧
    dfaAccepts (dfaComplement exampleDfa) ["a"] = !dfaAccepts exampleDfa ["a"] :=
  ⟨by decide,
    (C4_complement_exactly_one exampleDfa "q0" ["a"] (by decide) (by decide)
      (by decide) (by decide) (by decide)).2.2.2.2.2⟩

/-- A scan pass only grows the symbol set. -/
theorem scanPass_subset (ps : List Production) (g : Finset CObj) :
    g ⊆ (scanPass ps g).1 := by
  induction ps generalizing g with
  | nil => exact Finset.Subset.refl g
  | cons p ps ih =>
      rw [scanPass]
      by_cases h1 : CObj.var p.head ∈ g
      · rw [if_pos h1]; exact ih g
      · rw [if_neg h1]
        by_cases h2 : p.body.all (fun x => decide (x ∈ g)) = true
        · rw [if_pos h2]
          exact (Finset.subset_insert _ g).trans (ih _)
        · rw [if_neg h2]; exact ih g

/-- Counting: each head added by a pass leaves the bound set `B \ g`; the
number of additions plus the remaining slack never exceeds the slack before
the pass. -/
theorem scanPass_card (ps : List Production) (g : Finset CObj) (B : Finset CObj)
    (hB : ∀ p ∈ ps, CObj.var p.head ∈ B) :
    (scanPass ps g).2.length + (B \ (scanPass ps g).1).card ≤ (B \ g).card := by
  induction ps generalizing g with
  | nil => simp [scanPass]
  | cons p ps ih =>
      have hBps : ∀ p ∈ ps, CObj.var p.head ∈ B :=
        fun p hp => hB p (List.mem_cons_of_mem _ hp)
      rw [scanPass]
      by_cases h1 : CObj.var p.head ∈ g
      · rw [if_pos h1]; exact ih g hBps
      · rw [if_neg h1]
        by_cases h2 : p.body.all (fun x => decide (x ∈ g)) = true
        · rw [if_pos h2]
          have hmem : CObj.var p.head ∈ B \ g :=
            Finset.mem_sdiff.mpr ⟨hB p (List.mem_cons_self p ps), h1⟩
          have hcard : (B \ insert (CObj.var p.head) g).card = (B \ g).card - 1 := by
            rw [Finset.sdiff_insert, Finset.card_erase_of_mem hmem]
          have hpos : 1 ≤ (B \ g).card := Finset.card_pos.mpr ⟨_, hmem⟩
          have := ih (insert (CObj.var p.head) g) hBps
          simp only [List.length_cons]
          omega
        · rw [if_neg h2]; exact ih g hBps

/-- Soundness of a pass: it stays below every closed superset of the
current set. -/
theorem scanPass_sound (ps : List Production) (g : Finset CObj)
    (H : Finset CObj)
    (hH : ∀ p ∈ ps, (∀ x ∈ p.body, x ∈ H) → CObj.var p.head ∈ H)
    (hg : g ⊆ H) : (scanPass ps g).1 ⊆ H := by
  induction ps generalizing g with
  | nil => exact hg
  | cons p ps ih =>
      have hHps : ∀ p ∈ ps, (∀ x ∈ p.body, x ∈ H) → CObj.var p.head ∈ H :=
        fun p hp => hH p (List.mem_cons_of_mem _ hp)
      rw [scanPass]
      by_cases h1 : CObj.var p.head ∈ g
      · rw [if_pos h1]; exact ih g hHps hg
      · rw [if_neg h1]
        by_cases h2 : p.body.all (fun x => decide (x ∈ g)) = true
        · rw [if_pos h2]
          have hbody : ∀ x ∈ p.body, x ∈ H := by
            intro x hx
            exact hg (of_decide_eq_true (List.all_eq_true.mp h2 x hx))
          exact ih _ hHps (Finset.insert_subset (hH p (List.mem_cons_self p ps) hbody) hg)
        · rw [if_neg h2]; exact ih g hHps hg

/-- A pass that adds nothing witnesses closedness: every production was
scanned against the unchanged set. -/
theorem scanPass_fixed_closed (ps : List Production) (g : Finset CObj)
    (hfix : (scanPass ps g).1 = g) :
    ∀ p ∈ ps, (∀ x ∈ p.body, x ∈ g) → CObj.var p.head ∈ g := by
  induction ps generalizing g with
  | nil => intro p hp; exact absurd hp (List.not_mem_nil p)
  | cons p ps ih =>
      intro p1 hp1 hbody
      rw [scanPass] at hfix
      by_cases h1 : CObj.var p.head ∈ g
      · rw [if_pos h1] at hfix
        rcases List.mem_cons.mp hp1 with h | h
        · rw [h]; exact h1
        · exact ih g hfix p1 h hbody
      · rw [if_neg h1] at hfix
        by_cases h2 : p.body.all (fun x => decide (x ∈ g)) = true
        · rw [if_pos h2] at hfix
          exfalso
          have hsub := scanPass_subset ps (insert (CObj.var p.head) g)
          have : CObj.var p.head ∈ g := by
            rw [← hfix]
            exact hsub (Finset.mem_insert_self _ _)
          exact h1 this
        · rw [if_neg h2] at hfix
          rcases List.mem_cons.mp hp1 with h | h
          · subst h
            exfalso
            apply h2
            rw [List.all_eq_true]
            exact fun x hx => decide_eq_true (hbody x hx)
          · exact ih g hfix p1 h hbody

/-- A pass that pushed no head onto the queue did not change the set. -/
theorem scanPass_no_new (ps : List Production) (g : Finset CObj)
    (hnil : (scanPass ps g).2 = []) : (scanPass ps g).1 = g := by
  induction ps generalizing g with
  | nil => rfl
  | cons p ps ih =>
      rw [scanPass] at hnil ⊢
      by_cases h1 : CObj.var p.head ∈ g
      · rw [if_pos h1] at hnil ⊢; exact ih g hnil
      · rw [if_neg h1] at hnil ⊢
        by_cases h2 : p.body.all (fun x => decide (x ∈ g)) = true
        · rw [if_pos h2] at hnil
          exact absurd hnil (List.cons_ne_nil _ _)
        · rw [if_neg h2] at hnil ⊢; exact ih g hnil

/-- The queue-driven loop terminates within the fuel bound and returns the
least set closed under the productions above the seed. -/
theorem worklist_correct (prods : List Production) (B : Finset CObj)
    (hB : ∀ p ∈ prods, CObj.var p.head ∈ B) (seed : Finset CObj) :
    ∀ (fuel : Nat) (g : Finset CObj) (q : List CObj),
      q.length + 2 * (B \ g).card < fuel →
      seed ⊆ g →
      (∀ H, seed ⊆ H → ClosedUnder prods H → g ⊆ H) →
      (q = [] → ClosedUnder prods g) →
      ∃ gf, worklist prods fuel g q = some gf ∧ seed ⊆ gf ∧
        ClosedUnder prods gf ∧
        (∀ H, seed ⊆ H → ClosedUnder prods H → gf ⊆ H) := by
  intro fuel
  induction fuel with
  | zero => intro g q hm; omega
  | succ fuel ih =>
      intro g q hm hseed hsound hJ
      cases q with
      | nil =>
          exact ⟨g, rfl, hseed, hJ rfl, hsound⟩
      | cons x rest =>
          rw [worklist]
          have hL2 := scanPass_card prods g B hB
          have hm' : (rest ++ (scanPass prods g).2).length +
              2 * (B \ (scanPass prods g).1).card < fuel := by
            rw [List.length_append]
            simp only [List.length_cons] at hm
            omega
          have hseed' : seed ⊆ (scanPass prods g).1 :=
            hseed.trans (scanPass_subset prods g)
          have hsound' : ∀ H, seed ⊆ H → ClosedUnder prods H →
              (scanPass prods g).1 ⊆ H :=
            fun H hs hc => scanPass_sound prods g H hc (hsound H hs hc)
          have hJ' : rest ++ (scanPass prods g).2 = [] →
              ClosedUnder prods (scanPass prods g).1 := by
            intro hq
            rcases List.append_eq_nil.mp hq with ⟨-, h2⟩
            have hfix := scanPass_no_new prods g h2
            rw [hfix]
            exact scanPass_fixed_closed prods g hfix
          exact ih (scanPass prods g).1 (rest ++ (scanPass prods g).2)
            hm' hseed' hsound' hJ'

/-- C5: `get_generating_or_nullable` computes the least fixpoint of the
worklist algorithm — the result (before the final erasure of epsilon) is
the least set that contains the seed ({epsilon} for nullable, {epsilon}
plus all terminals for generating) and is closed under adding the head of
any production whose entire body lies in the set; the returned set is that
fixpoint with epsilon removed, i.e. exactly the derived variables (and, for
generating, the terminals). -/
theorem C5_generating_nullable_least_fixpoint (terminals : Finset String) (prods : List Production)
    (nullable : Bool) :
    ∃ g, getGeneratingOrNullable terminals prods nullable =
        some (g.erase CObj.eps) ∧
      seedSet terminals nullable ⊆ g ∧
      ClosedUnder prods g ∧
      (∀ H, seedSet terminals nullable ⊆ H → ClosedUnder prods H → g ⊆ H) := by
  have hB : ∀ p ∈ prods, CObj.var p.head ∈ headSet prods := by
    intro p hp
    rw [headSet, List.mem_toFinset]
    exact List.mem_map.mpr ⟨p, hp, rfl⟩
  have hcard : ((headSet prods) \ seedSet terminals nullable).card ≤
      (headSet prods).card :=
    Finset.card_le_card (Finset.sdiff_subset)
  have hm : (seedQueue terminals nullable).length +
      2 * ((headSet prods) \ seedSet terminals nullable).card <
      (seedQueue terminals nullable).length + 2 * (headSet prods).card + 1 := by
    omega
  have hne : seedQueue terminals nullable ≠ [] := by
    cases nullable <;> simp [seedQueue]
  obtain ⟨gf, hrun, hs, hc, hl⟩ :=
    worklist_correct prods (headSet prods) hB (seedSet terminals nullable)
      ((seedQueue terminals nullable).length + 2 * (headSet prods).card + 1)
      (seedSet terminals nullable) (seedQueue terminals nullable)
      hm (Finset.Subset.refl _) (fun H hs _ => hs) (fun h => absurd h hne)
  refine ⟨gf, ?_, hs, hc, hl⟩
  rw [getGeneratingOrNullable, hrun]
  rfl

/-- Epsilon-transition targets stay inside the mentioned states. -/
theorem epsNext_subset_univ (n : Enfa String String) (q : String) :
    epsNext n q ⊆ univStates n := by
  intro x hx
  rw [epsNext, List.mem_toFinset] at hx
  obtain ⟨t, ht, rfl⟩ := List.mem_map.mp hx
  have ht' := List.mem_filter.mp ht
  rw [univStates]
  exact Finset.mem_union_right _ (List.mem_toFinset.mpr
    (List.mem_map.mpr ⟨t, ht'.1, rfl⟩))

/-- Symbol-transition targets stay inside the mentioned states. -/
theorem nextOn_subset_univ (n : Enfa String String) (q a : String) :
    nextOn n q a ⊆ univStates n := by
  intro x hx
  rw [nextOn, List.mem_toFinset] at hx
  obtain ⟨t, ht, rfl⟩ := List.mem_map.mp hx
  have ht' := List.mem_filter.mp ht
  rw [univStates]
  exact Finset.mem_union_right _ (List.mem_toFinset.mpr
    (List.mem_map.mpr ⟨t, ht'.1, rfl⟩))

/-- One closure round stays inside the mentioned states. -/
theorem ecloseStep_subset_univ (n : Enfa String String) (t : Finset String)
    (h : t ⊆ univStates n) : ecloseStep n t ⊆ univStates n := by
  rw [ecloseStep]
  exact Finset.union_subset h
    (Finset.biUnion_subset.mpr (fun q _ => epsNext_subset_univ n q))

/-- One closure round only grows the set. -/
theorem subset_ecloseStep (n : Enfa String String) (t : Finset String) :
    t ⊆ ecloseStep n t :=
  Finset.subset_union_left

/-- Iterated closure rounds stay inside the mentioned states. -/
theorem iterate_ecloseStep_subset_univ (n : Enfa String String) (k : Nat)
    (s : Finset String) (h : s ⊆ univStates n) :
    (ecloseStep n)^[k] s ⊆ univStates n := by
  induction k generalizing s with
  | zero => exact h
  | succ k ih =>
      rw [Function.iterate_succ_apply]
      exact ih _ (ecloseStep_subset_univ n s h)

/-- Iterated closure rounds only grow the set. -/
theorem subset_iterate_ecloseStep (n : Enfa String String) (k : Nat)
    (s : Finset String) : s ⊆ (ecloseStep n)^[k] s := by
  induction k generalizing s with
  | zero => exact Finset.Subset.refl s
  | succ k ih =>
      rw [Function.iterate_succ_apply]
      exact (subset_ecloseStep n s).trans (ih _)

/-- The closure stays inside the mentioned states. -/
theorem eclose_subset_univ (n : Enfa String String) (s : Finset String)
    (h : s ⊆ univStates n) : eclose n s ⊆ univStates n :=
  iterate_ecloseStep_subset_univ n _ s h

/-- The closure contains its argument. -/
theorem subset_eclose (n : Enfa String String) (s : Finset String) :
    s ⊆ eclose n s :=
  subset_iterate_ecloseStep n _ s

/-- While no round is a fixpoint, each round adds at least one state. -/
theorem iterate_grows (n : Enfa String String) (s : Finset String) (m : Nat)
    (h : ∀ j < m, (ecloseStep n)^[j] s ≠ (ecloseStep n)^[j + 1] s) :
    m + s.card ≤ ((ecloseStep n)^[m] s).card := by
  induction m with
  | zero => simp
  | succ m ih =>
      have hm := ih (fun j hj => h j (Nat.lt_succ_of_lt hj))
      have hne := h m (Nat.lt_succ_self m)
      have hsub : (ecloseStep n)^[m] s ⊆ (ecloseStep n)^[m + 1] s := by
        rw [Function.iterate_succ_apply']
        exact subset_ecloseStep n _
      have hlt : ((ecloseStep n)^[m] s).card < ((ecloseStep n)^[m + 1] s).card :=
        Finset.card_lt_card (Finset.ssubset_iff_subset_ne.mpr ⟨hsub, hne⟩)
      omega

/-- After as many rounds as there are mentioned states, the closure has
stabilized: it is a fixpoint of one more round. -/
theorem eclose_fixed (n : Enfa String String) (s : Finset String)
    (h : s ⊆ univStates n) : ecloseStep n (eclose n s) = eclose n s := by
  have hex : ∃ k ≤ (univStates n).card,
      (ecloseStep n)^[k] s = (ecloseStep n)^[k + 1] s := by
    by_contra hcon
    push_neg at hcon
    have hgrow := iterate_grows n s ((univStates n).card + 1)
      (fun j hj => hcon j (by omega))
    have hle : ((ecloseStep n)^[(univStates n).card + 1] s).card ≤
        (univStates n).card :=
      Finset.card_le_card (iterate_ecloseStep_subset_univ n _ s h)
    omega
  obtain ⟨k, hk, hfix⟩ := hex
  have hfix' : ecloseStep n ((ecloseStep n)^[k] s) = (ecloseStep n)^[k] s := by
    have h1 : (ecloseStep n)^[k + 1] s = ecloseStep n ((ecloseStep n)^[k] s) :=
      Function.iterate_succ_apply' _ _ _
    rw [← h1, ← hfix]
  have hstable : eclose n s = (ecloseStep n)^[k] s := by
    rw [eclose, show (univStates n).card = ((univStates n).card - k) + k by omega,
      Function.iterate_add_apply]
    exact Function.iterate_fixed hfix' _
  rw [hstable]
  exact hfix'

/-- The closure is below every epsilon-closed superset of its argument. -/
theorem eclose_least (n : Enfa String String) (s t : Finset String)
    (hst : s ⊆ t) (ht : ∀ q ∈ t, epsNext n q ⊆ t) : eclose n s ⊆ t := by
  rw [eclose]
  generalize (univStates n).card = k
  induction k with
  | zero => exact hst
  | succ k ih =>
      rw [Function.iterate_succ_apply']
      rw [ecloseStep]
      exact Finset.union_subset ih
        (Finset.biUnion_subset.mpr (fun q hq => ht q (ih hq)))

/-- The closure of the empty set is empty. -/
theorem eclose_empty (n : Enfa String String) : eclose n ∅ = ∅ := by
  rw [eclose]
  have hfix : ecloseStep n ∅ = ∅ := by
    rw [ecloseStep]
    simp
  exact Function.iterate_fixed hfix _

/-- The stabilized closure is epsilon-closed. -/
theorem epsNext_subset_eclose (n : Enfa String String) (s : Finset String)
    (h : s ⊆ univStates n) :
    ∀ q ∈ eclose n s, epsNext n q ⊆ eclose n s := by
  intro q hq x hx
  have hfix := eclose_fixed n s h
  rw [← hfix, ecloseStep]
  exact Finset.mem_union_right _ (Finset.mem_biUnion.mpr ⟨q, hq, hx⟩)

/-- The closure distributes over union. -/
theorem eclose_union (n : Enfa String String) (s t : Finset String)
    (hs : s ⊆ univStates n) (ht : t ⊆ univStates n) :
    eclose n (s ∪ t) = eclose n s ∪ eclose n t := by
  apply Finset.Subset.antisymm
  · apply eclose_least
    · exact Finset.union_subset
        ((subset_eclose n s).trans Finset.subset_union_left)
        ((subset_eclose n t).trans Finset.subset_union_right)
    · intro q hq
      rcases Finset.mem_union.mp hq with h | h
      · exact (epsNext_subset_eclose n s hs q h).trans Finset.subset_union_left
      · exact (epsNext_subset_eclose n t ht q h).trans Finset.subset_union_right
  · apply Finset.union_subset
    · exact eclose_least n s (eclose n (s ∪ t))
        (Finset.subset_union_left.trans (subset_eclose n (s ∪ t)))
        (epsNext_subset_eclose n (s ∪ t) (Finset.union_subset hs ht))
    · exact eclose_least n t (eclose n (s ∪ t))
        (Finset.subset_union_right.trans (subset_eclose n (s ∪ t)))
        (epsNext_subset_eclose n (s ∪ t) (Finset.union_subset hs ht))

/-- The closure distributes over indexed unions, which identifies the
spec's two phrasings: the union of the epsilon-closures of the per-state
targets equals the epsilon-closure of the union of the targets. -/
theorem eclose_biUnion (n : Enfa String String) (s : Finset String)
    (f : String → Finset String) (hf : ∀ q, f q ⊆ univStates n) :
    eclose n (s.biUnion f) = s.biUnion (fun q => eclose n (f q)) := by
  induction s using Finset.induction_on with
  | empty => simp [eclose_empty]
  | insert hq ih =>
      rw [Finset.biUnion_insert, Finset.biUnion_insert,
        eclose_union n _ _ (hf _)
          (Finset.biUnion_subset.mpr (fun q _ => hf q)), ih]

/-- The subset-construction transition equals the epsilon-extended
acceptance update. -/
theorem detStep_eq_enfaStep (n : Enfa String String) (s : Finset String)
    (a : String) : detStep n s a = enfaStep n s a := by
  rw [detStep, enfaStep, eclose_biUnion n s _ (fun q => nextOn_subset_univ n q a)]

/-- The subset-construction transition lands inside the mentioned
states. -/
theorem detStep_subset_univ (n : Enfa String String) (s : Finset String)
    (a : String) : detStep n s a ⊆ univStates n :=
  eclose_subset_univ n _ (Finset.biUnion_subset.mpr
    (fun q _ => nextOn_subset_univ n q a))

/-- No transition moves on a symbol outside the (extended) alphabet. -/
theorem nextOn_empty_of_not_sym (n : Enfa String String) (q a : String)
    (ha : a ∉ symsOf n) : nextOn n q a = ∅ := by
  rw [Finset.eq_empty_iff_forall_not_mem]
  intro x hx
  rw [nextOn, List.mem_toFinset] at hx
  obtain ⟨t, ht, -⟩ := List.mem_map.mp hx
  have ht' := List.mem_filter.mp ht
  have hsym : t.2.1 = some a := (of_decide_eq_true ht'.2).2
  apply ha
  rw [symsOf]
  exact Finset.mem_union_right _ (List.mem_toFinset.mpr
    (List.mem_filterMap.mpr ⟨t, ht'.1, hsym⟩))

/-- The active set dies on a symbol outside the alphabet. -/
theorem enfaStep_not_sym (n : Enfa String String) (s : Finset String)
    (a : String) (ha : a ∉ symsOf n) : enfaStep n s a = ∅ := by
  rw [enfaStep, Finset.eq_empty_iff_forall_not_mem]
  intro x hx
  obtain ⟨q, -, hx⟩ := Finset.mem_biUnion.mp hx
  rw [nextOn_empty_of_not_sym n q a ha, eclose_empty] at hx
  exact absurd hx (Finset.not_mem_empty x)

/-- An empty active set stays empty for one symbol. -/
theorem enfaStep_empty (n : Enfa String String) (a : String) :
    enfaStep n ∅ a = ∅ := by
  rw [enfaStep]
  exact Finset.biUnion_empty

/-- An empty active set stays empty along any word. -/
theorem foldl_enfaStep_empty (n : Enfa String String) (w : List String) :
    w.foldl (enfaStep n) ∅ = ∅ := by
  induction w with
  | nil => rfl
  | cons a w ih => rw [List.foldl_cons, enfaStep_empty]; exact ih

/-- Lookup in a transition function enumerated over a key list by a value
function. -/
theorem getNextState_keyed {Q A : Type} [DecidableEq Q] [DecidableEq A]
    (ks : List (Q × A)) (f : Q × A → Q) (q : Q) (a : A) :
    getNextState (ks.map (fun k => (k, f k))) q a =
      if (q, a) ∈ ks then some (f (q, a)) else none := by
  induction ks with
  | nil => simp [getNextState]
  | cons k ks ih =>
      have hstep : getNextState ((k :: ks).map (fun p => (p, f p))) q a =
          (if k = (q, a) then some (f k)
            else getNextState (ks.map (fun p => (p, f p))) q a) := rfl
      rw [hstep]
      by_cases hk : k = (q, a)
      · subst hk
        rw [if_pos rfl, if_pos (List.mem_cons_self (q, a) ks)]
      · rw [if_neg hk, ih]
        by_cases hmem : (q, a) ∈ ks
        · rw [if_pos hmem, if_pos (List.mem_cons_of_mem k hmem)]
        · have hnot : (q, a) ∉ k :: ks := by
            intro hcon
            rcases List.mem_cons.mp hcon with h | h
            · exact hk h.symm
            · exact hmem h
          rw [if_neg hmem, if_neg hnot]

/-- The subset enumeration contains exactly the subsets. -/
theorem mem_subsetsList (u s : Finset String) :
    s ∈ subsetsList u ↔ s ⊆ u := by
  rw [subsetsList]
  constructor
  · intro hs
    obtain ⟨l, hl, rfl⟩ := List.mem_map.mp hs
    have hsl := List.mem_sublists.mp hl
    intro x hx
    have := hsl.subset (List.mem_toFinset.mp hx)
    rw [setList] at this
    exact (Finset.mem_sort _).mp this
  · intro hs
    refine List.mem_map.mpr
      ⟨(setList u).filter (fun x => decide (x ∈ s)), ?_, ?_⟩
    · exact List.mem_sublists.mpr (List.filter_sublist _)
    · ext x
      rw [List.mem_toFinset, List.mem_filter, setList, Finset.mem_sort]
      constructor
      · exact fun h => of_decide_eq_true h.2
      · exact fun h => ⟨hs h, decide_eq_true h⟩

/-- The key enumeration of the constructed DFA contains exactly the pairs
of a subset of the mentioned states with an alphabet symbol. -/
theorem mem_detKeys (n : Enfa String String) (s : Finset String) (a : String) :
    (s, a) ∈ detKeys n ↔ s ⊆ univStates n ∧ a ∈ symsOf n := by
  rw [detKeys, List.mem_flatMap]
  constructor
  · rintro ⟨s', hs', hmem⟩
    obtain ⟨a', ha', heq⟩ := List.mem_map.mp hmem
    injection heq with h1 h2
    subst h1
    subst h2
    refine ⟨(mem_subsetsList _ _).mp hs', ?_⟩
    rw [setList] at ha'
    exact (Finset.mem_sort _).mp ha'
  · rintro ⟨hs, ha⟩
    refine ⟨s, (mem_subsetsList _ _).mpr hs, List.mem_map.mpr ⟨a, ?_, rfl⟩⟩
    rw [setList]
    exact (Finset.mem_sort _).mpr ha

/-- Lookup in the constructed DFA: defined exactly on (subset, alphabet
symbol) pairs, where it returns the subset-construction transition. -/
theorem getNextState_toDeterministic (n : Enfa String String)
    (s : Finset String) (a : String) :
    getNextState (toDeterministic n).tf s a =
      if s ⊆ univStates n ∧ a ∈ symsOf n then some (detStep n s a) else none := by
  rw [show (toDeterministic n).tf =
    (detKeys n).map (fun k => (k, detStep n k.1 k.2)) from rfl]
  rw [getNextState_keyed (detKeys n) (fun k => detStep n k.1 k.2) s a]
  by_cases h : s ⊆ univStates n ∧ a ∈ symsOf n
  · rw [if_pos ((mem_detKeys n s a).mpr h), if_pos h]
  · rw [if_neg (fun hc => h ((mem_detKeys n s a).mp hc)), if_neg h]

/-- A failed DFA run stays failed. -/
theorem runDfa_from_none {Q A : Type} [DecidableEq Q] [DecidableEq A]
    (tf : TransFun Q A) (w : List A) :
    w.foldl (fun cur a => cur.bind fun q => getNextState tf q a) none = none := by
  induction w with
  | nil => rfl
  | cons a w ih => rw [List.foldl_cons]; exact ih

/-- A DFA run fails as soon as a transition is missing. -/
theorem runDfa_cons_none {Q A : Type} [DecidableEq Q] [DecidableEq A]
    (tf : TransFun Q A) (q : Q) (a : A) (w : List A)
    (h : getNextState tf q a = none) :
    runDfa tf q (a :: w) = none := by
  rw [runDfa, List.foldl_cons]
  show w.foldl (fun cur a => cur.bind fun q => getNextState tf q a)
    (getNextState tf q a) = none
  rw [h]
  exact runDfa_from_none tf w

/-- The run of the constructed DFA from a subset simulates the
epsilon-extended active-set fold from that subset. -/
theorem dfaFrom_toDet (n : Enfa String String) :
    ∀ (w : List String) (s : Finset String), s ⊆ univStates n →
      dfaAcceptsFrom (toDeterministic n) s w =
        decide ((w.foldl (enfaStep n) s ∩ n.finals).Nonempty) := by
  intro w
  induction w with
  | nil =>
      intro s hs
      show decide (s ∈ (toDeterministic n).finals) =
        decide ((s ∩ n.finals).Nonempty)
      rw [decide_eq_decide,
        show (toDeterministic n).finals = (univStates n).powerset.filter
          (fun t => (t ∩ n.finals).Nonempty) from rfl,
        Finset.mem_filter, Finset.mem_powerset]
      exact ⟨fun h => h.2, fun h => ⟨hs, h⟩⟩
  | cons a w ih =>
      intro s hs
      by_cases ha : a ∈ symsOf n
      · have hlook : getNextState (toDeterministic n).tf s a =
            some (detStep n s a) := by
          rw [getNextState_toDeterministic, if_pos ⟨hs, ha⟩]
        have hrun := runDfa_cons_some (toDeterministic n).tf s (detStep n s a)
          a w hlook
        have hcons : dfaAcceptsFrom (toDeterministic n) s (a :: w) =
            dfaAcceptsFrom (toDeterministic n) (detStep n s a) w := by
          simp only [dfaAcceptsFrom, hrun]
        rw [hcons, ih (detStep n s a) (detStep_subset_univ n s a),
          List.foldl_cons, detStep_eq_enfaStep]
      · have hlook : getNextState (toDeterministic n).tf s a = none := by
          rw [getNextState_toDeterministic, if_neg (fun hc => ha hc.2)]
        have hrun := runDfa_cons_none (toDeterministic n).tf s a w hlook
        have hfalse : dfaAcceptsFrom (toDeterministic n) s (a :: w) = false := by
          simp only [dfaAcceptsFrom, hrun]
        rw [hfalse, List.foldl_cons, enfaStep_not_sym n s a ha,
          foldl_enfaStep_empty]
        simp

/-- C1: for every epsilon-extended nondeterministic automaton and every
word, acceptance by the automaton (spec-modelled, since the source bodies
are placeholder stubs) coincides with acceptance, by the source DFA
`accepts`, of the subset-construction determinization. -/
theorem C1_to_deterministic_preserves_language (n : Enfa String String) (w : List String) :
    enfaAccepts n w = dfaAccepts (toDeterministic n) w := by
  have hstarts : n.starts ⊆ univStates n := by
    intro x hx
    rw [univStates]
    exact Finset.mem_union_left _ (Finset.mem_union_left _
      (Finset.mem_union_left _ (Finset.mem_union_right _ hx)))
  have h1 : dfaAccepts (toDeterministic n) w =
      dfaAcceptsFrom (toDeterministic n) (eclose n n.starts) w := rfl
  rw [h1, dfaFrom_toDet n w _ (eclose_subset_univ n _ hstarts)]
  rfl
